import Mathlib

set_option maxRecDepth 8000

/-!
# Verification of the ptouchgo raster-protocol core

Shallow embedding of the ptouchgo label-printer driver: the PackBits-style
run-length encoder (`packBits`), the per-row raster transfer framing
(`CompressImage`), the status-frame parser (`parseStatus`), the image
rasterizer's orientation and bit-packing logic (`LoadRawImage`), and the
print-property command frame (`SetPrintProperty`).

Bytes are modelled as `Nat`; every place where Go performs a `byte(...)`
cast the embedding takes `% 256` explicitly.
-/

namespace PTouchGo

/-! ## packBits (run-length encoder)

Embedding of `packBits` from the `ptouchgo` package.  The Go function
carries mutable state through the loop: `buf` (pending literal bytes),
`rle` (are we inside a repeat run), `repeats` (length of the pending
repeat run) and `dst` (output so far).  The loop peeks one byte ahead
(`input[i+1]`) and treats the final byte specially, which the list
patterns below mirror directly.
-/

/-- Go `finishRaw`: flush a pending literal run.  Emits `byte(buf.Len()-1)`
followed by the buffered bytes; does nothing on an empty buffer. -/
def finishRaw (dst buf : List Nat) : List Nat :=
  if buf = [] then dst else dst ++ (buf.length - 1) % 256 :: buf

/-- Go `finishRle`: flush a pending repeat run of `repeats` occurrences of
`b`.  Emits `byte(256-(repeats-1))` followed by the single repeated byte. -/
def finishRle (dst : List Nat) (b repeats : Nat) : List Nat :=
  dst ++ [(256 - (repeats - 1)) % 256, b]

/-- The body of Go `packBits`' `for i, b := range input` loop.  The
three patterns correspond to: loop over, last iteration (`isLast`), and an
iteration with a successor byte `b2 = input[i+1]` to peek at. -/
def packBitsAux : List Nat → Bool → Nat → List Nat → List Nat → List Nat
  | [], _, _, _, dst => dst
  | [b], rle, repeats, buf, dst =>
    if rle then finishRle dst b (repeats + 1)
    else finishRaw dst (buf ++ [b])
  | b :: b2 :: rest, rle, repeats, buf, dst =>
    if b = b2 then
      if rle then
        if repeats = 127 then
          packBitsAux (b2 :: rest) true 1 buf (finishRle dst b repeats)
        else
          packBitsAux (b2 :: rest) true (repeats + 1) buf dst
      else
        packBitsAux (b2 :: rest) true 1 [] (finishRaw dst buf)
    else
      if rle then
        packBitsAux (b2 :: rest) false 0 buf (finishRle dst b (repeats + 1))
      else
        if buf.length = 127 then
          packBitsAux (b2 :: rest) false repeats [b] (finishRaw dst buf)
        else
          packBitsAux (b2 :: rest) false repeats (buf ++ [b]) dst

/-- Go `packBits` (the Go function also returns an always-`nil` error,
dropped here).  Initial state: empty literal buffer, not in a repeat run. -/
def packBits (input : List Nat) : List Nat :=
  packBitsAux input false 0 [] []

/-! ## Decoder, modelled from the spec

The repository deliberately ships no decompressor; the spec states the
control-byte rules a decoder must follow.  `decodePB` is modelled from the
spec: control byte `c ∈ [0,127]` reads `c+1` literal bytes; `c ∈ [129,255]`
repeats the following single byte `257-c` times; `c = 128` is reserved. -/
def decodePB : List Nat → Option (List Nat)
  | [] => some []
  | c :: rest =>
    if c ≤ 127 then
      if c + 1 ≤ rest.length then
        (decodePB (rest.drop (c + 1))).map (fun tail => rest.take (c + 1) ++ tail)
      else none
    else if 129 ≤ c ∧ c ≤ 255 then
      match rest with
      | [] => none
      | b :: rest2 => (decodePB rest2).map (fun tail => List.replicate (257 - c) b ++ tail)
    else none
  termination_by l => l.length
  decreasing_by
    · simp only [List.length_cons, List.length_drop]; omega
    · simp only [List.length_cons]; omega

/-- The list of decoded run lengths of an encoded stream, following the same
control-byte rules as `decodePB` (modelled from the spec). -/
def runLengths : List Nat → Option (List Nat)
  | [] => some []
  | c :: rest =>
    if c ≤ 127 then
      if c + 1 ≤ rest.length then
        (runLengths (rest.drop (c + 1))).map (fun ls => (c + 1) :: ls)
      else none
    else if 129 ≤ c ∧ c ≤ 255 then
      match rest with
      | [] => none
      | _ :: rest2 => (runLengths rest2).map (fun ls => (257 - c) :: ls)
    else none
  termination_by l => l.length
  decreasing_by
    · simp only [List.length_cons, List.length_drop]; omega
    · simp only [List.length_cons]; omega

/-! ## CompressImage (per-row raster transfer framing)

Embedding of `CompressImage(data, bytesWidth)` from the `ptouchgo` package
(the current raster path).  The Go loop walks `data` in steps of
`bytesWidth`; per chunk it computes `packed := packBits(chunk)` (whose
result is only used for a debug print — it is NOT written), then writes
`cmdRasterTransfer` (`0x77`), the constant mode byte `0x02`, the byte cast
`byte(uint(bytesWidth))` and the RAW `chunk`.  The Go loop `i += bytesWidth`
does not terminate when `bytesWidth = 0` and `data` is nonempty; that case
is never reached (`bytesWidth ≥ 1` for any rasterized image), and the
embedding dispatches on `bytesWidth` being a successor. -/

def cmdRasterTransfer : List Nat := [0x77]

/-- One iteration per chunk of the Go loop body, for `bytesWidth = w' + 1`. -/
def compressGo (w' : Nat) : List Nat → List Nat
  | [] => []
  | hd :: tl =>
    let chunk := (hd :: tl).take (w' + 1)
    let _packed := packBits chunk
    cmdRasterTransfer ++ [0x02, (w' + 1) % 256] ++ chunk
      ++ compressGo w' ((hd :: tl).drop (w' + 1))
  termination_by l => l.length
  decreasing_by simp only [List.length_drop, List.length_cons]; omega

/-- Go `CompressImage` (always-`nil` error dropped). -/
def CompressImage (data : List Nat) (bytesWidth : Nat) : List Nat :=
  match bytesWidth with
  | 0 => []
  | w' + 1 => compressGo w' data

/-! ## parseStatus (32-byte status frame decoder)

Embedding of `parseStatus` and the status offset constants from the
`ptouchgo` package.  Go's enum types (`StatusType`, `BatteryStatusType`, …)
are integer types whose conversion from a byte always succeeds, so every
field is modelled as the raw `Nat` byte value; unknown codes are preserved
untouched.  Go's `Status.Type` field is renamed `typ` (`Type` is reserved
in Lean). -/

def statusOffsetModel : Nat := 4

def statusOffsetBattery : Nat := 6

def statusOffsetErrorInfo1 : Nat := 8

def statusOffsetErrorInfo2 : Nat := 9

def statusOffsetMediaWidth : Nat := 10

def statusOffsetMediaType : Nat := 11

def statusOffsetMode : Nat := 15

def statusOffsetTapeLength : Nat := 17

def statusOffsetStatusType : Nat := 18

def statusOffsetPhaseType : Nat := 19

def statusOffsetPhaseNumber : Nat := 20

def statusOffsetNotification : Nat := 22

def statusOffsetTapeColor : Nat := 24

def statusOffsetFontColor : Nat := 25

/-- Source enum constants relevant to the claims. -/
def statusTypeReply : Nat := 0

def batteryFull : Nat := 0

structure Status where
  typ : Nat
  Model : Nat
  Battery : Nat
  Error1 : Nat
  Error2 : Nat
  Mode : Nat
  StatusType : Nat
  PhaseType : Nat
  Phase : Nat
  Notification : Nat
  MediaType : Nat
  TapeColor : Nat
  TapeLength : Nat
  TapeWidth : Nat
  FontColor : Nat
  deriving Repr, DecidableEq

/-- Go `parseStatus`: rejects any input that is not exactly 32 bytes, then
reads single bytes at fixed offsets. -/
def parseStatus (input : List Nat) : Option Status :=
  if input.length ≠ 32 then none
  else some {
    typ := input.getD statusOffsetStatusType 0
    Model := input.getD statusOffsetModel 0
    Battery := input.getD statusOffsetBattery 0
    Error1 := input.getD statusOffsetErrorInfo1 0
    Error2 := input.getD statusOffsetErrorInfo2 0
    Mode := input.getD statusOffsetMode 0
    StatusType := input.getD statusOffsetStatusType 0
    PhaseType := input.getD statusOffsetPhaseType 0
    Phase := input.getD statusOffsetPhaseNumber 0
    Notification := input.getD statusOffsetNotification 0
    MediaType := input.getD statusOffsetMediaType 0
    TapeColor := input.getD statusOffsetTapeColor 0
    TapeLength := input.getD statusOffsetTapeLength 0
    TapeWidth := input.getD statusOffsetMediaWidth 0
    FontColor := input.getD statusOffsetFontColor 0 }

/-! ## LoadRawImage: orientation selection

Embedding of the dimension dispatch at the top of `LoadRawImage` in the
`ptouchgo` package: `ws := 720`; an image whose width is `ws` is used via
`imaging.FlipH`, otherwise one whose height is `ws` via `imaging.Transpose`,
otherwise the function fails with an error carrying the expected pixel
width, the tape width and the actual size. -/

inductive OrientPath where
  | flipH
  | transpose
  deriving Repr, DecidableEq

structure DimensionError where
  expectedPx : Nat
  tapeWidth : Nat
  gotX : Nat
  gotY : Nat
  deriving Repr, DecidableEq

def deviceRasterWidthPx : Nat := 720

/-- The `if size.X == ws / else if size.Y == ws / else error` dispatch of
`LoadRawImage` (the selected `imaging` transformation is represented by
which `OrientPath` is returned). -/
def loadRawImageOrient (X Y tapeWidth : Nat) : Except DimensionError OrientPath :=
  if X = deviceRasterWidthPx then Except.ok OrientPath.flipH
  else if Y = deviceRasterWidthPx then Except.ok OrientPath.transpose
  else Except.error ⟨deviceRasterWidthPx, tapeWidth, X, Y⟩

/-! ## LoadRawImage: luminance threshold and 1-bit packing

After orientation, `LoadRawImage` converts the canvas to 1bpp.  An image is
modelled by its size and a pixel function returning the `(r, g, b)` values
that Go's `color.Color.RGBA()` yields (16-bit, in `[0, 0xffff]`; the alpha
value is discarded by the code).

Go computes `lightness := float64(55*r+182*g+18*b) / float64(0xffff*(55+182+18))`
and darkens the pixel when `lightness <= 0.5`.  Numerator and denominator
are integers below `2^24`, hence exact in `float64`; the denominator
`0xffff*255 = 16711425` is odd, so the exact quotient never equals `1/2`,
and since rounding to nearest is monotone and cannot cross the representable
value `0.5` (the quotient is at least `1/(2*16711425)` away from `1/2`,
far more than a half-ulp), the float comparison holds iff
`2*(55r+182g+18b) ≤ 0xffff*255`.  `darkPixel` uses that exact integer test. -/

structure RawImage where
  X : Nat
  Y : Nat
  pix : Nat → Nat → Nat × Nat × Nat

/-- The `lightness <= 0.5` test of `LoadRawImage`, as an exact integer
comparison (see the section comment). -/
def darkPixel (p : Nat × Nat × Nat) : Bool :=
  decide (2 * (55 * p.1 + 182 * p.2.1 + 18 * p.2.2) ≤ 0xffff * (55 + 182 + 18))

/-- Go: `bytesWidth := size.X / 8; if size.X%8 != 0 { bytesWidth++ }`. -/
def bytesWidth (X : Nat) : Nat :=
  X / 8 + (if X % 8 = 0 then 0 else 1)

/-- Whether the loop body `data[y*bw+x/8] |= 0x80 >> uint(x%8)` runs for
pixel `(x, y)`: the column must be inside the image and the pixel dark. -/
def pixBit (img : RawImage) (y x : Nat) : Bool :=
  decide (x < img.X) && darkPixel (img.pix x y)

/-- The byte at row `y`, byte-column `k`: Go ORs `0x80 >> (x%8)` for each
dark pixel `x ∈ [8k, 8k+7]` into the zero-initialised byte; since the eight
positions carry distinct powers of two, the OR-accumulation equals this
sum. -/
def rasterByte (img : RawImage) (y k : Nat) : Nat :=
  (if pixBit img y (8 * k) then 128 else 0) +
  (if pixBit img y (8 * k + 1) then 64 else 0) +
  (if pixBit img y (8 * k + 2) then 32 else 0) +
  (if pixBit img y (8 * k + 3) then 16 else 0) +
  (if pixBit img y (8 * k + 4) then 8 else 0) +
  (if pixBit img y (8 * k + 5) then 4 else 0) +
  (if pixBit img y (8 * k + 6) then 2 else 0) +
  (if pixBit img y (8 * k + 7) then 1 else 0)

/-- The raster buffer `data` of `LoadRawImage`: `bytesWidth*Y` bytes where
index `i` belongs to row `i / bytesWidth`, byte-column `i % bytesWidth`
(Go writes pixel `(x,y)` into index `y*bytesWidth + x/8`). -/
def rasterData (img : RawImage) : List Nat :=
  (List.range (bytesWidth img.X * img.Y)).map
    (fun i => rasterByte img (i / bytesWidth img.X) (i % bytesWidth img.X))

/-- A 9×2 test canvas: one dark pixel at `(3, 1)`, the rest white. -/
def testImg : RawImage :=
  ⟨9, 2, fun x y => if x = 3 ∧ y = 1 then (0, 0, 0) else (65535, 65535, 65535)⟩

/-! ## SetPrintProperty (print-property command frame)

Embedding of `Serial.SetPrintProperty(rasterLines)` from the `ptouchgo`
package.  The `Serial` session state carries `TapeWidthMM`, but the method
never reads it: the tape-width parameter byte is the constant
`byte(uint(62))` and the media type the constant `0x0A`.  The enable flag
is OR-accumulated in source order (recover-on-device, width, length,
media); the four raster-line-count bytes use the literal divisions and
moduli of the source with the final `byte(...)` casts as `% 256`. -/

def printPropertyEnableBitMedia : Nat := 0x02

def printPropertyEnableBitWidth : Nat := 0x04

def printPropertyEnableBitLength : Nat := 0x08

def printPropertyEnableBitQuality : Nat := 0x40

def printPropertyEnableBitRecoverOnDevice : Nat := 0x80

def cmdSetPrintPropertyPrefix : List Nat := [0x1b, 0x69, 0x7a]

/-- The session state of Go's `Serial` struct (the `Conn` handle and the
debug flag do not influence frame contents and are omitted). -/
structure SerialState where
  TapeWidthMM : Nat

/-- The byte sequence `Serial.SetPrintProperty` writes to the connection. -/
def setPrintPropertyData (s : SerialState) (rasterLines : Nat) : List Nat :=
  let enableFlag0 := 0 ||| printPropertyEnableBitRecoverOnDevice
  let tapeWidth := 62 % 256
  let enableFlag1 := enableFlag0 ||| printPropertyEnableBitWidth
  let tapeLength := 0 % 256
  let enableFlag2 := enableFlag1 ||| printPropertyEnableBitLength
  let r := rasterLines
  let rasterNumN4 := r / (256 * 256 * 256) % 256
  let rasterNumN3 := r % (256 * 256 * 256) / (256 * 256) % 256
  let rasterNumN2 := r % (256 * 256 * 256) % (256 * 256) / 256 % 256
  let rasterNumN1 := r % 256 % 256
  let mediaType : Nat := 0x0A
  let enableFlag := enableFlag2 ||| printPropertyEnableBitMedia
  let page : Nat := 0x00
  let eeprom : Nat := 0x00
  cmdSetPrintPropertyPrefix ++ [enableFlag % 256, mediaType, tapeWidth, tapeLength,
    rasterNumN1, rasterNumN2, rasterNumN3, rasterNumN4, page, eeprom]

example : packBits [5] = [0, 5] := by decide

example : packBits [] = [] := by decide

example : packBits [7, 7, 7] = [254, 7] := by decide

example : packBits [1, 2, 3] = [2, 1, 2, 3] := by decide

example : packBits [1, 2, 2, 3] = [0, 1, 255, 2, 0, 3] := by decide

/-! ### Helper lemmas about the encoder state machine -/

lemma finishRaw_dst (dst buf : List Nat) :
    finishRaw dst buf = dst ++ finishRaw [] buf := by
  unfold finishRaw; split <;> simp

lemma finishRle_dst (dst : List Nat) (b r : Nat) :
    finishRle dst b r = dst ++ finishRle [] b r := by
  simp [finishRle]

/-- Output already written is only appended to: the loop with accumulated
output `dst` produces `dst` followed by what it would produce from empty. -/
lemma packBitsAux_dst (input : List Nat) : ∀ (rle : Bool) (r : Nat) (buf dst : List Nat),
    packBitsAux input rle r buf dst = dst ++ packBitsAux input rle r buf [] := by
  induction input with
  | nil => intro rle r buf dst; simp [packBitsAux]
  | cons b tail ih =>
    intro rle r buf dst
    cases tail with
    | nil =>
      cases rle
      · simpa only [packBitsAux, Bool.false_eq_true, if_false] using
          finishRaw_dst dst (buf ++ [b])
      · simpa only [packBitsAux, if_true] using finishRle_dst dst b (r + 1)
    | cons b2 rest =>
      simp only [packBitsAux]
      by_cases hb : b = b2
      · simp only [if_pos hb]
        cases rle
        · simp only [Bool.false_eq_true, if_false]
          rw [ih true 1 [] (finishRaw dst buf), ih true 1 [] (finishRaw [] buf),
            finishRaw_dst, List.append_assoc]
        · simp only [if_true]
          by_cases hr : r = 127
          · simp only [if_pos hr]
            rw [ih true 1 buf (finishRle dst b r), ih true 1 buf (finishRle [] b r),
              finishRle_dst, List.append_assoc]
          · simp only [if_neg hr]
            rw [ih true (r + 1) buf dst]
      · simp only [if_neg hb]
        cases rle
        · simp only [Bool.false_eq_true, if_false]
          by_cases hl : buf.length = 127
          · simp only [if_pos hl]
            rw [ih false r [b] (finishRaw dst buf), ih false r [b] (finishRaw [] buf),
              finishRaw_dst, List.append_assoc]
          · simp only [if_neg hl]
            rw [ih false r (buf ++ [b]) dst]
        · simp only [if_true]
          rw [ih false 0 buf (finishRle dst b (r + 1)), ih false 0 buf (finishRle [] b (r + 1)),
            finishRle_dst, List.append_assoc]

/-- A nonempty flushed literal buffer of at most 128 bytes is emitted as
control byte `length-1` followed by the raw bytes (the `byte(...)` cast
does not wrap). -/
lemma finishRaw_eq (dst buf : List Nat) (h0 : buf ≠ []) (h1 : buf.length ≤ 128) :
    finishRaw dst buf = dst ++ (buf.length - 1) :: buf := by
  unfold finishRaw
  rw [if_neg h0, Nat.mod_eq_of_lt (by omega)]

/-- A flushed repeat run of `R ∈ [2,128]` occurrences is emitted as control
byte `256-(R-1)` followed by the repeated byte (no wrap-around). -/
lemma finishRle_eq (dst : List Nat) (b R : Nat) (h2 : 2 ≤ R) (h128 : R ≤ 128) :
    finishRle dst b R = dst ++ [256 - (R - 1), b] := by
  unfold finishRle
  rw [Nat.mod_eq_of_lt (by omega)]

/-- Decoding a literal group: control byte `len-1` followed by the literal
bytes prepends them to whatever the remainder decodes to. -/
lemma decodePB_lit (bs y : List Nat) (h0 : bs ≠ []) (h1 : bs.length ≤ 128) :
    decodePB ((bs.length - 1) :: (bs ++ y)) = (decodePB y).map (fun t => bs ++ t) := by
  have hpos : 0 < bs.length := List.length_pos.mpr h0
  have hlen : bs.length - 1 + 1 = bs.length := by omega
  rw [decodePB.eq_def]
  simp only [hlen, List.length_append, List.take_left, List.drop_left]
  rw [if_pos (by omega : bs.length - 1 ≤ 127),
    if_pos (by omega : bs.length ≤ bs.length + y.length)]

/-- Decoding a repeat group: control byte `256-(R-1)` with `R ∈ [2,128]`
followed by one byte prepends `R` copies of it to the rest. -/
lemma decodePB_rle (R b : Nat) (y : List Nat) (h2 : 2 ≤ R) (h128 : R ≤ 128) :
    decodePB ((256 - (R - 1)) :: b :: y) =
      (decodePB y).map (fun t => List.replicate R b ++ t) := by
  have hR : 257 - (256 - (R - 1)) = R := by omega
  rw [decodePB.eq_def]
  simp only [hR]
  rw [if_neg (by omega : ¬ (256 - (R - 1) ≤ 127)),
    if_pos (⟨by omega, by omega⟩ : 129 ≤ 256 - (R - 1) ∧ 256 - (R - 1) ≤ 255)]

/-- Invariant of the `packBits` loop: from a literal state whose buffer holds
the bytes `buf` (at most 127 of them, empty if the input is exhausted), the
emitted stream decodes to `buf ++ input`; from a repeat state pending `r`
occurrences of the byte currently at the head, it decodes to
`replicate r head ++ input`. -/
lemma packBitsAux_decode (input : List Nat) :
    (∀ (buf : List Nat) (r : Nat), buf.length ≤ 127 → (input = [] → buf = []) →
      decodePB (packBitsAux input false r buf []) = some (buf ++ input)) ∧
    (∀ (b : Nat) (rest : List Nat) (r : Nat), input = b :: rest → 1 ≤ r → r ≤ 127 →
      decodePB (packBitsAux input true r [] []) = some (List.replicate r b ++ input)) := by
  induction input with
  | nil =>
    refine ⟨?_, ?_⟩
    · intro buf r _ hnil
      rw [hnil rfl]
      simp [packBitsAux, decodePB]
    · intro b rest r h _ _
      exact absurd h (by simp)
  | cons b tail ih =>
    cases tail with
    | nil =>
      refine ⟨?_, ?_⟩
      · intro buf r hle _
        have hfin : packBitsAux [b] false r buf [] = finishRaw [] (buf ++ [b]) := by
          simp [packBitsAux]
        rw [hfin, finishRaw_eq [] (buf ++ [b]) (by simp) (by simp; omega),
          List.nil_append]
        have hlit := decodePB_lit (buf ++ [b]) [] (by simp) (by simp; omega)
        simp only [List.append_nil] at hlit
        rw [hlit]
        simp [decodePB]
      · intro b' rest' r heq h1 h127
        obtain ⟨rfl, rfl⟩ : b = b' ∧ rest' = [] := by
          injection heq with ha hb; exact ⟨ha, hb.symm⟩
        have hfin : packBitsAux [b] true r [] [] = finishRle [] b (r + 1) := by
          simp [packBitsAux]
        rw [hfin, finishRle_eq [] b (r + 1) (by omega) (by omega), List.nil_append]
        have hrle := decodePB_rle (r + 1) b [] (by omega) (by omega)
        rw [hrle]
        simp [decodePB, List.replicate_succ']
    | cons b2 rest =>
      have ihT : ∀ r, 1 ≤ r → r ≤ 127 →
          decodePB (packBitsAux (b2 :: rest) true r [] []) =
            some (List.replicate r b2 ++ (b2 :: rest)) :=
        fun r h1 h2 => ih.2 b2 rest r rfl h1 h2
      have ihF : ∀ (buf : List Nat) (r : Nat), buf.length ≤ 127 →
          decodePB (packBitsAux (b2 :: rest) false r buf []) =
            some (buf ++ (b2 :: rest)) :=
        fun buf r h => ih.1 buf r h (by simp)
      refine ⟨?_, ?_⟩
      · intro buf r hbuf _
        by_cases hb : b = b2
        · have hstep : packBitsAux (b :: b2 :: rest) false r buf [] =
              packBitsAux (b2 :: rest) true 1 [] (finishRaw [] buf) := by
            simp [packBitsAux, hb]
          rw [hstep, packBitsAux_dst]
          by_cases hbe : buf = []
          · subst hbe
            simpa [finishRaw, hb] using ihT 1 (by omega) (by omega)
          · rw [finishRaw_eq [] buf hbe (by omega), List.nil_append, List.cons_append,
              decodePB_lit buf _ hbe (by omega), ihT 1 (by omega) (by omega)]
            simp [hb]
        · have hstep : packBitsAux (b :: b2 :: rest) false r buf [] =
              if buf.length = 127 then
                packBitsAux (b2 :: rest) false r [b] (finishRaw [] buf)
              else
                packBitsAux (b2 :: rest) false r (buf ++ [b]) [] := by
            simp [packBitsAux, hb]
          by_cases hl : buf.length = 127
          · have hbe : buf ≠ [] := by
              intro h; rw [h] at hl; simp at hl
            rw [hstep, if_pos hl, packBitsAux_dst,
              finishRaw_eq [] buf hbe (by omega), List.nil_append, List.cons_append,
              decodePB_lit buf _ hbe (by omega), ihF [b] r (by simp)]
            simp
          · rw [hstep, if_neg hl, ihF (buf ++ [b]) r (by simp; omega)]
            simp
      · intro b' rest' r heq h1 h127
        obtain ⟨rfl, rfl⟩ : b = b' ∧ rest' = b2 :: rest := by
          injection heq with ha hb; exact ⟨ha, hb.symm⟩
        by_cases hb : b = b2
        · by_cases hr : r = 127
          · have hstep : packBitsAux (b :: b2 :: rest) true r [] [] =
                packBitsAux (b2 :: rest) true 1 [] (finishRle [] b r) := by
              simp [packBitsAux, hb, hr]
            rw [hstep, packBitsAux_dst, finishRle_eq [] b r (by omega) (by omega),
              List.nil_append, List.cons_append, List.cons_append,
              decodePB_rle r b _ (by omega) (by omega), List.nil_append,
              ihT 1 (by omega) (by omega)]
            simp [hb]
          · have hstep : packBitsAux (b :: b2 :: rest) true r [] [] =
                packBitsAux (b2 :: rest) true (r + 1) [] [] := by
              simp [packBitsAux, hb, hr]
            rw [hstep, ihT (r + 1) (by omega) (by omega)]
            simp [hb, List.replicate_succ']
        · have hstep : packBitsAux (b :: b2 :: rest) true r [] [] =
              packBitsAux (b2 :: rest) false 0 [] (finishRle [] b (r + 1)) := by
            simp [packBitsAux, hb]
          rw [hstep, packBitsAux_dst, finishRle_eq [] b (r + 1) (by omega) (by omega),
            List.nil_append, List.cons_append, List.cons_append,
            decodePB_rle (r + 1) b _ (by omega) (by omega), List.nil_append,
            ihF [] 0 (by simp)]
          simp [List.replicate_succ']

/-- C1: Round-trip law: for every byte sequence `b`, decoding the output of
`packBits b` under the spec's control-byte rules (control byte `c ∈ [0,127]`
reads `c+1` literal bytes; `c ∈ [129,255]` repeats the following single byte
`257-c` times) reconstructs exactly `b`. -/
theorem packBits_decode_roundtrip :
    ∀ input : List Nat, decodePB (packBits input) = some input := by
  intro input
  have h := (packBitsAux_decode input).1 [] 0 (by simp) (fun _ => rfl)
  simpa [packBits] using h

/-- If a stream decodes, its run lengths parse as well. -/
lemma runLengths_isSome_of_decode :
    ∀ (n : Nat) (x : List Nat), x.length ≤ n →
      (decodePB x).isSome = true → (runLengths x).isSome = true := by
  intro n
  induction n with
  | zero =>
    intro x hx _
    have hnil : x = [] := List.length_eq_zero.mp (Nat.le_zero.mp hx)
    subst hnil
    simp [runLengths]
  | succ n ih =>
    intro x hx hdec
    cases x with
    | nil => simp [runLengths]
    | cons c rest =>
      rw [decodePB.eq_def] at hdec
      rw [runLengths.eq_def]
      simp only at hdec ⊢
      by_cases h1 : c ≤ 127
      · rw [if_pos h1] at hdec ⊢
        by_cases h2 : c + 1 ≤ rest.length
        · rw [if_pos h2] at hdec ⊢
          simp only [Option.isSome_map'] at hdec ⊢
          refine ih _ ?_ hdec
          simp only [List.length_cons] at hx
          simp only [List.length_drop]
          omega
        · rw [if_neg h2] at hdec
          simp at hdec
      · rw [if_neg h1] at hdec ⊢
        by_cases h3 : 129 ≤ c ∧ c ≤ 255
        · rw [if_pos h3] at hdec ⊢
          cases rest with
          | nil => simp at hdec
          | cons b rest2 =>
            simp only [Option.isSome_map'] at hdec ⊢
            refine ih rest2 ?_ hdec
            simp only [List.length_cons] at hx
            omega
        · rw [if_neg h3] at hdec
          simp at hdec

/-- Every run length parsed by `runLengths` is between 1 and 128: literal
groups decode `c+1 ≤ 128` bytes and repeat groups `257-c ≤ 128` bytes. -/
lemma runLengths_bound :
    ∀ (n : Nat) (x ls : List Nat), x.length ≤ n → runLengths x = some ls →
      ∀ L ∈ ls, 1 ≤ L ∧ L ≤ 128 := by
  intro n
  induction n with
  | zero =>
    intro x ls hx hrun
    have hnil : x = [] := List.length_eq_zero.mp (Nat.le_zero.mp hx)
    subst hnil
    have hls : ls = [] := by
      have := hrun.symm
      simpa [runLengths] using this
    subst hls
    simp
  | succ n ih =>
    intro x ls hx hrun
    cases x with
    | nil =>
      have hls : ls = [] := by
        have := hrun.symm
        simpa [runLengths] using this
      subst hls
      simp
    | cons c rest =>
      have hrest : rest.length ≤ n := by
        simp only [List.length_cons] at hx
        omega
      rw [runLengths.eq_def] at hrun
      simp only at hrun
      by_cases h1 : c ≤ 127
      · rw [if_pos h1] at hrun
        by_cases h2 : c + 1 ≤ rest.length
        · rw [if_pos h2] at hrun
          cases htail : runLengths (rest.drop (c + 1)) with
          | none => rw [htail] at hrun; simp at hrun
          | some ls' =>
            rw [htail] at hrun
            simp only [Option.map_some'] at hrun
            cases hrun
            intro L hL
            have hdroplen : (rest.drop (c + 1)).length ≤ n := by
              simp only [List.length_drop]
              omega
            rcases List.mem_cons.mp hL with rfl | hL'
            · omega
            · exact ih _ ls' hdroplen htail L hL'
        · rw [if_neg h2] at hrun
          simp at hrun
      · rw [if_neg h1] at hrun
        by_cases h3 : 129 ≤ c ∧ c ≤ 255
        · rw [if_pos h3] at hrun
          cases rest with
          | nil => simp at hrun
          | cons b rest2 =>
            have hrun2 : Option.map (fun ls => (257 - c) :: ls) (runLengths rest2) = some ls :=
              hrun
            cases htail : runLengths rest2 with
            | none => rw [htail] at hrun2; simp at hrun2
            | some ls' =>
              rw [htail] at hrun2
              simp only [Option.map_some'] at hrun2
              cases hrun2
              intro L hL
              have hlen2 : rest2.length ≤ n := by
                simp only [List.length_cons] at hrest
                omega
              rcases List.mem_cons.mp hL with rfl | hL'
              · omega
              · exact ih rest2 ls' hlen2 htail L hL'
        · rw [if_neg h3] at hrun
          simp at hrun

/-- C3 counterexample: 128 identical bytes are emitted as a SINGLE repeat
group `[129, v]` decoding to a run of length 128 > 127 — the claimed
flush-at-127 does not happen when the run ends exactly at 128. -/
theorem packBits_run_of_128_cex :
    packBits (List.replicate 128 7) = [129, 7] ∧
    runLengths (packBits (List.replicate 128 7)) = some [128] ∧
    ¬ (128 ≤ 127) := by
  refine ⟨by decide, ?_, by decide⟩
  rw [(by decide : packBits (List.replicate 128 7) = [129, 7])]
  simp [runLengths]

/-- C3 (amended): every run emitted by `packBits` has length at most 128
(not 127: a run that reaches 127 is only flushed early when yet another
equal byte follows, so runs of exactly 128 occur); the run lengths always
parse, and a uniform input of 300 identical bytes splits into repeat runs
127, 127, 46 — each at most 127. -/
theorem packBits_runs_le_128 :
    (∀ input : List Nat, (runLengths (packBits input)).isSome = true ∧
      ((runLengths (packBits input)).getD []).all (fun L => decide (L ≤ 128)) = true) ∧
    runLengths (packBits (List.replicate 300 7)) = some [127, 127, 46] := by
  constructor
  · intro input
    have hs : (runLengths (packBits input)).isSome = true :=
      runLengths_isSome_of_decode (packBits input).length _ le_rfl
        (by rw [packBits_decode_roundtrip input]; rfl)
    refine ⟨hs, ?_⟩
    obtain ⟨ls, hls⟩ := Option.isSome_iff_exists.mp hs
    rw [hls]
    simp only [Option.getD_some, List.all_eq_true]
    intro L hL
    have := runLengths_bound (packBits input).length _ ls le_rfl hls L hL
    simp only [decide_eq_true_eq]
    omega
  · rw [(by decide : packBits (List.replicate 300 7) = [130, 7, 130, 7, 211, 7])]
    simp [runLengths]

/-- C7: literal flush format (control byte `L-1` then the `L` raw bytes),
repeat flush format (control byte `256-(R-1)` then exactly the one repeated
byte), end-of-input flushing of an open run of either kind, the empty-input
and single-byte edge cases. -/
theorem packBits_flush_format :
    (∀ dst buf : List Nat, 1 ≤ buf.length → buf.length ≤ 127 →
        finishRaw dst buf = dst ++ (buf.length - 1) :: buf) ∧
    (∀ (dst : List Nat) (b R : Nat), 2 ≤ R → R ≤ 128 →
        finishRle dst b R = dst ++ [256 - (R - 1), b]) ∧
    packBits [] = [] ∧
    (∀ b : Nat, packBits [b] = [0, b]) ∧
    (∀ (b r : Nat) (buf : List Nat),
        packBitsAux [b] false r buf [] = finishRaw [] (buf ++ [b])) ∧
    (∀ b r : Nat, packBitsAux [b] true r [] [] = finishRle [] b (r + 1)) := by
  refine ⟨?_, ?_, by decide, ?_, ?_, ?_⟩
  · intro dst buf h1 h127
    exact finishRaw_eq dst buf (by
      intro h; rw [h] at h1; simp at h1) (by omega)
  · intro dst b R h2 h128
    exact finishRle_eq dst b R h2 h128
  · intro b
    simp [packBits, packBitsAux, finishRaw]
  · intro b r buf
    simp [packBitsAux]
  · intro b r
    simp [packBitsAux]

/-- Witness for `packBits_flush_format` at concrete inputs. -/
theorem packBits_flush_format_witness :
    finishRaw [9] [1, 2] = [9, 1, 1, 2] ∧ finishRle [] 7 3 = [254, 7] ∧
    packBits [5] = [0, 5] := by
  refine ⟨?_, ?_, packBits_flush_format.2.2.2.1 5⟩
  · have h := packBits_flush_format.1 [9] [1, 2] (by decide) (by decide)
    simpa using h
  · have h := packBits_flush_format.2.1 [] 7 3 (by decide) (by decide)
    simpa using h

/-! ### Uniform inputs -/

/-- A pending repeat run that fits below the limit is emitted as one group:
from a repeat state of `r` pending occurrences, `k+1` more equal bytes end
with a single control byte `256 - (r + k)`. -/
lemma packBitsAux_rle_fits :
    ∀ (k v r : Nat), 1 ≤ r → r + k ≤ 127 →
      packBitsAux (List.replicate (k + 1) v) true r [] [] = [256 - (r + k), v] := by
  intro k
  induction k with
  | zero =>
    intro v r h1 h2
    rw [(by simp : List.replicate (0 + 1) v = [v])]
    simp [packBitsAux, finishRle]
    omega
  | succ k ih =>
    intro v r h1 h2
    rw [(by simp [List.replicate_succ] : List.replicate (k + 1 + 1) v =
      v :: v :: List.replicate k v)]
    have hr : r ≠ 127 := by omega
    have hstep : packBitsAux (v :: v :: List.replicate k v) true r [] [] =
        packBitsAux (v :: List.replicate k v) true (r + 1) [] [] := by
      simp [packBitsAux, hr]
    rw [hstep, (by simp [List.replicate_succ] : v :: List.replicate k v =
      List.replicate (k + 1) v), ih v (r + 1) (by omega) (by omega)]
    congr 1
    omega

/-- Climbing a repeat run: `d` further equal bytes (with at least two bytes
still ahead) only increase the pending counter by `d`. -/
lemma packBitsAux_rle_climb :
    ∀ (d v r m : Nat), 1 ≤ r → r + d ≤ 127 →
      packBitsAux (List.replicate (m + d + 2) v) true r [] [] =
        packBitsAux (List.replicate (m + 2) v) true (r + d) [] [] := by
  intro d
  induction d with
  | zero => intro v r m _ _; rfl
  | succ d ih =>
    intro v r m h1 h2
    have hrep : List.replicate (m + (d + 1) + 2) v = v :: v :: List.replicate (m + d + 1) v := by
      rw [show m + (d + 1) + 2 = m + d + 1 + 1 + 1 from by omega]
      simp [List.replicate_succ]
    rw [hrep]
    have hr : r ≠ 127 := by omega
    have hstep : packBitsAux (v :: v :: List.replicate (m + d + 1) v) true r [] [] =
        packBitsAux (v :: List.replicate (m + d + 1) v) true (r + 1) [] [] := by
      simp [packBitsAux, hr]
    rw [hstep, (by simp [List.replicate_succ] : v :: List.replicate (m + d + 1) v =
      List.replicate (m + d + 2) v), ih v (r + 1) m (by omega) (by omega)]
    congr 1
    omega

/-- Hitting the 127 limit while another equal byte still follows flushes a
`[130, v]` group (127 occurrences) and restarts the counter at 1. -/
lemma packBitsAux_rle_flush (v m : Nat) :
    packBitsAux (List.replicate (m + 2) v) true 127 [] [] =
      130 :: v :: packBitsAux (List.replicate (m + 1) v) true 1 [] [] := by
  rw [(by simp [List.replicate_succ] : List.replicate (m + 2) v =
    v :: v :: List.replicate m v)]
  have hstep : packBitsAux (v :: v :: List.replicate m v) true 127 [] [] =
      packBitsAux (v :: List.replicate m v) true 1 [] (finishRle [] v 127) := by
    simp [packBitsAux]
  rw [hstep, packBitsAux_dst, (by simp [List.replicate_succ] :
    v :: List.replicate m v = List.replicate (m + 1) v)]
  norm_num [finishRle]

/-- C8: an input of 200 identical bytes compresses into exactly two repeat
groups of 127 and 73 occurrences: output bytes control `130` + value then
control `184` + value. -/
theorem packBits_uniform_200 :
    ∀ v : Nat, packBits (List.replicate 200 v) = [130, v, 184, v] ∧
      runLengths (packBits (List.replicate 200 v)) = some [127, 73] := by
  intro v
  have henc : packBits (List.replicate 200 v) = [130, v, 184, v] := by
    unfold packBits
    rw [(by norm_num [List.replicate_succ] : List.replicate 200 v =
      v :: v :: List.replicate 198 v)]
    have hstep : packBitsAux (v :: v :: List.replicate 198 v) false 0 [] [] =
        packBitsAux (v :: List.replicate 198 v) true 1 [] [] := by
      simp [packBitsAux, finishRaw]
    rw [hstep, (by rw [← List.replicate_succ] :
      v :: List.replicate 198 v = List.replicate (71 + 126 + 2) v),
      packBitsAux_rle_climb 126 v 1 71 (by omega) (by omega),
      (by norm_num : (1 : Nat) + 126 = 127),
      packBitsAux_rle_flush v 71]
    rw [packBitsAux_rle_fits 71 v 1 (by omega) (by omega)]
  refine ⟨henc, ?_⟩
  rw [henc]
  simp [runLengths]

example : decodePB [254, 7] = some [7, 7, 7] := by simp [decodePB]

example : decodePB (packBits [1, 2, 2, 3]) = some [1, 2, 2, 3] := by
  norm_num [packBits, packBitsAux, finishRaw, finishRle, decodePB]; rfl

example : runLengths (packBits [1, 2, 2, 3]) = some [1, 2, 1] := by
  norm_num [packBits, packBitsAux, finishRaw, finishRle, runLengths]

example : CompressImage [5, 5, 5, 5] 4 = [0x77, 0x02, 4, 5, 5, 5, 5] := by
  simp [CompressImage, compressGo, cmdRasterTransfer]

/-- C2 counterexample: the chunk body written by `CompressImage` is the raw
row, not its `packBits` compression.  For the row `[5,5,5,5]` (width 4) the
packBits payload would be `[253, 5]`, but the emitted frame carries the four
raw bytes. -/
theorem compressImage_raw_body_cex :
    CompressImage [5, 5, 5, 5] 4 = [0x77, 0x02, 4, 5, 5, 5, 5] ∧
    packBits [5, 5, 5, 5] = [253, 5] ∧
    CompressImage [5, 5, 5, 5] 4 ≠ [0x77, 0x02, 4] ++ packBits [5, 5, 5, 5] := by
  refine ⟨?_, by decide, ?_⟩
  · simp [CompressImage, compressGo, cmdRasterTransfer]
  · intro h
    rw [(by decide : packBits [5, 5, 5, 5] = [253, 5])] at h
    have h2 : CompressImage [5, 5, 5, 5] 4 = [0x77, 0x02, 4, 5, 5, 5, 5] := by
      simp [CompressImage, compressGo, cmdRasterTransfer]
    rw [h2] at h
    simp at h

/-- C2 (amended): each per-row chunk emitted by `CompressImage` is framed as
the transfer marker `0x77`, the constant compression-mode byte `0x02`, the
uncompressed row byte-width (mod 256), and then the RAW (uncompressed) row
bytes as the chunk body; the `packBits` result is computed but not written. -/
theorem compressImage_frame_amended :
    ∀ (rows : List (List Nat)) (w : Nat), 1 ≤ w → (∀ row ∈ rows, row.length = w) →
      CompressImage rows.flatten w =
        (rows.map (fun row => [0x77, 0x02, w % 256] ++ row)).flatten := by
  intro rows w hw
  induction rows with
  | nil =>
    intro _
    match w, hw with
    | w' + 1, _ => simp [CompressImage, compressGo]
  | cons row rows' ih =>
    intro hlens
    have hrow : row.length = w := hlens row (by simp)
    have hrows' : ∀ row ∈ rows', row.length = w := fun r hr => hlens r (by simp [hr])
    match w, hw, hrow with
    | w' + 1, _, hrow =>
      have hne : row ++ rows'.flatten ≠ [] := by
        intro h
        have : row = [] := List.append_eq_nil.mp h |>.1
        rw [this] at hrow
        simp at hrow
      match hjoin : row ++ List.flatten rows' with
      | [] => exact absurd hjoin hne
      | hd :: tl =>
        have hstep : CompressImage ((row :: rows').flatten) (w' + 1) =
            [0x77, 0x02, (w' + 1) % 256] ++ (hd :: tl).take (w' + 1)
              ++ compressGo w' ((hd :: tl).drop (w' + 1)) := by
          simp only [CompressImage, List.flatten_cons, hjoin, compressGo, cmdRasterTransfer]
          rfl
        have htake : (hd :: tl).take (w' + 1) = row := by
          rw [← hjoin, ← hrow, List.take_left]
        have hdrop : (hd :: tl).drop (w' + 1) = rows'.flatten := by
          rw [← hjoin, ← hrow, List.drop_left]
        rw [hstep, htake, hdrop]
        have ihj : compressGo w' rows'.flatten =
            (rows'.map (fun row => [0x77, 0x02, (w' + 1) % 256] ++ row)).flatten := by
          have := ih hrows'
          simpa [CompressImage] using this
        rw [ihj]
        simp

/-- Witness for `compressImage_frame_amended`: two rows of width 2. -/
theorem compressImage_frame_amended_witness :
    CompressImage ([[1, 2], [3, 3]] : List (List Nat)).flatten 2 =
      (([[1, 2], [3, 3]] : List (List Nat)).map
        (fun row => [0x77, 0x02, 2 % 256] ++ row)).flatten := by
  exact compressImage_frame_amended [[1, 2], [3, 3]] 2 (by decide) (by decide)

/-- C4: `parseStatus` fails iff the input is not exactly 32 bytes; on any
32-byte input it succeeds with every field the raw byte at its fixed offset
(unrecognized enum codes preserved as numbers); 32 zero bytes give status
type Reply (0) and battery Full (0). -/
theorem parseStatus_spec :
    (∀ input : List Nat, parseStatus input = none ↔ input.length ≠ 32) ∧
    (∀ input : List Nat, input.length = 32 →
      parseStatus input = some {
        typ := input.getD 18 0, Model := input.getD 4 0, Battery := input.getD 6 0,
        Error1 := input.getD 8 0, Error2 := input.getD 9 0, Mode := input.getD 15 0,
        StatusType := input.getD 18 0, PhaseType := input.getD 19 0,
        Phase := input.getD 20 0, Notification := input.getD 22 0,
        MediaType := input.getD 11 0, TapeColor := input.getD 24 0,
        TapeLength := input.getD 17 0, TapeWidth := input.getD 10 0,
        FontColor := input.getD 25 0 }) ∧
    parseStatus (List.replicate 32 0) = some {
      typ := statusTypeReply, Model := 0, Battery := batteryFull, Error1 := 0,
      Error2 := 0, Mode := 0, StatusType := 0, PhaseType := 0, Phase := 0,
      Notification := 0, MediaType := 0, TapeColor := 0, TapeLength := 0,
      TapeWidth := 0, FontColor := 0 } := by
  refine ⟨?_, ?_, by decide⟩
  · intro input
    unfold parseStatus
    constructor
    · intro h
      by_contra hlen
      rw [if_neg (by omega : ¬ input.length ≠ 32)] at h
      simp at h
    · intro hlen
      rw [if_pos hlen]
  · intro input hlen
    unfold parseStatus
    rw [if_neg (by omega)]
    rfl

/-- Witness for `parseStatus_spec`: a 32-byte frame of the unrecognized
enum code 99 everywhere parses with every field preserved as 99;
a 31-byte frame fails. -/
theorem parseStatus_spec_witness :
    parseStatus (List.replicate 32 99) = some {
      typ := 99, Model := 99, Battery := 99, Error1 := 99, Error2 := 99,
      Mode := 99, StatusType := 99, PhaseType := 99, Phase := 99,
      Notification := 99, MediaType := 99, TapeColor := 99, TapeLength := 99,
      TapeWidth := 99, FontColor := 99 } ∧
    parseStatus (List.replicate 31 0) = none := by
  constructor
  · have h := parseStatus_spec.2.1 (List.replicate 32 99) (by decide)
    rw [h]
    decide
  · exact (parseStatus_spec.1 (List.replicate 31 0)).mpr (by decide)

/-- C5: width = 720 selects the horizontal-flip path; otherwise height = 720
selects the transpose path; matching neither axis yields a dimension
error naming the expected width (720) and the actual size.  In particular
a 720×100 image flips and a 100×720 image transposes. -/
theorem loadRawImage_orientation :
    (∀ Y tw : Nat, loadRawImageOrient 720 Y tw = Except.ok OrientPath.flipH) ∧
    (∀ X Y tw : Nat, X ≠ 720 → Y = 720 →
      loadRawImageOrient X Y tw = Except.ok OrientPath.transpose) ∧
    (∀ X Y tw : Nat, X ≠ 720 → Y ≠ 720 →
      loadRawImageOrient X Y tw = Except.error ⟨720, tw, X, Y⟩) ∧
    loadRawImageOrient 720 100 24 = Except.ok OrientPath.flipH ∧
    loadRawImageOrient 100 720 24 = Except.ok OrientPath.transpose := by
  refine ⟨?_, ?_, ?_, rfl, rfl⟩
  · intro Y tw
    simp [loadRawImageOrient, deviceRasterWidthPx]
  · intro X Y tw hX hY
    simp [loadRawImageOrient, deviceRasterWidthPx, hX, hY]
  · intro X Y tw hX hY
    simp [loadRawImageOrient, deviceRasterWidthPx, hX, hY]

/-- Witness for `loadRawImage_orientation` at concrete sizes. -/
theorem loadRawImage_orientation_witness :
    loadRawImageOrient 100 720 12 = Except.ok OrientPath.transpose ∧
    loadRawImageOrient 50 60 12 = Except.error ⟨720, 12, 50, 60⟩ := by
  exact ⟨loadRawImage_orientation.2.1 100 720 12 (by decide) rfl,
    loadRawImage_orientation.2.2.1 50 60 12 (by decide) (by decide)⟩

lemma byteSum_testBit :
    ∀ (b0 b1 b2 b3 b4 b5 b6 b7 : Bool) (j : Fin 8),
      ((if b0 then 128 else 0) + (if b1 then 64 else 0) + (if b2 then 32 else 0) +
        (if b3 then 16 else 0) + (if b4 then 8 else 0) + (if b5 then 4 else 0) +
        (if b6 then 2 else 0) + (if b7 then 1 else 0) : Nat).testBit (7 - j.val) =
        [b0, b1, b2, b3, b4, b5, b6, b7].getD j.val false := by decide

lemma rasterByte_testBit (img : RawImage) (y k j : Nat) (hj : j < 8) :
    (rasterByte img y k).testBit (7 - j) = pixBit img y (8 * k + j) := by
  have h := byteSum_testBit (pixBit img y (8 * k)) (pixBit img y (8 * k + 1))
    (pixBit img y (8 * k + 2)) (pixBit img y (8 * k + 3)) (pixBit img y (8 * k + 4))
    (pixBit img y (8 * k + 5)) (pixBit img y (8 * k + 6)) (pixBit img y (8 * k + 7))
    ⟨j, hj⟩
  unfold rasterByte
  interval_cases j <;> simpa using h

lemma rasterData_getD (img : RawImage) (i : Nat)
    (h : i < bytesWidth img.X * img.Y) :
    (rasterData img).getD i 0 =
      rasterByte img (i / bytesWidth img.X) (i % bytesWidth img.X) := by
  unfold rasterData
  rw [List.getD_eq_getElem _ _ (by simpa using h)]
  simp

/-- C6: for a pixel `(x, y)` of the oriented canvas, the raster buffer's bit
at position `7 - (x mod 8)` of byte `x/8` of row `y` is set exactly when the
pixel's luminance `(55R+182G+18B)/(0xffff*(55+182+18))` is at most `0.5`;
the row stride is `ceil(width/8)` and the buffer length is
`stride * height`. -/
theorem loadRawImage_raster_bits (img : RawImage) (x y : Nat)
    (hx : x < img.X) (hy : y < img.Y) :
    ((rasterData img).getD (y * bytesWidth img.X + x / 8) 0).testBit (7 - x % 8)
        = darkPixel (img.pix x y) ∧
    (rasterData img).length = bytesWidth img.X * img.Y ∧
    bytesWidth img.X = (img.X + 7) / 8 := by
  have hX : 0 < img.X := by omega
  have hbw : 0 < bytesWidth img.X := by
    unfold bytesWidth
    split <;> omega
  have hx8 : x / 8 < bytesWidth img.X := by
    unfold bytesWidth
    split <;> omega
  refine ⟨?_, by simp [rasterData], by unfold bytesWidth; split <;> omega⟩
  have hidx : y * bytesWidth img.X + x / 8 < bytesWidth img.X * img.Y := by
    calc y * bytesWidth img.X + x / 8 < y * bytesWidth img.X + bytesWidth img.X := by omega
      _ = (y + 1) * bytesWidth img.X := by ring
      _ ≤ img.Y * bytesWidth img.X := Nat.mul_le_mul_right _ (by omega)
      _ = bytesWidth img.X * img.Y := Nat.mul_comm _ _
  rw [rasterData_getD img _ hidx]
  have hdiv : (y * bytesWidth img.X + x / 8) / bytesWidth img.X = y := by
    rw [Nat.add_comm, Nat.add_mul_div_right _ _ hbw, Nat.div_eq_of_lt hx8, Nat.zero_add]
  have hmod : (y * bytesWidth img.X + x / 8) % bytesWidth img.X = x / 8 := by
    rw [Nat.add_comm, Nat.add_mul_mod_self_right, Nat.mod_eq_of_lt hx8]
  rw [hdiv, hmod, rasterByte_testBit img y (x / 8) (x % 8) (Nat.mod_lt _ (by norm_num)),
    Nat.div_add_mod x 8]
  simp [pixBit, hx]

/-- Witness for `loadRawImage_raster_bits` at the concrete canvas. -/
theorem loadRawImage_raster_bits_witness :
    ((rasterData testImg).getD (1 * bytesWidth testImg.X + 3 / 8) 0).testBit (7 - 3 % 8)
        = darkPixel (testImg.pix 3 1) ∧
    (rasterData testImg).length = bytesWidth testImg.X * testImg.Y ∧
    bytesWidth testImg.X = (testImg.X + 7) / 8 :=
  loadRawImage_raster_bits testImg 3 1 (by decide) (by decide)

example : setPrintPropertyData ⟨12⟩ 600 =
    [0x1b, 0x69, 0x7a, 0x8e, 0x0a, 62, 0, 0x58, 0x02, 0, 0, 0, 0] := by decide

/-- C9: the raster line count is encoded as 4 bytes, least-significant
first: N1 = r mod 256, N2 = (r/256) mod 256, N3 = (r/65536) mod 256,
N4 = r/16777216 (for any count below 2^32); for `rasterLines = 600` the
four bytes are `[0x58, 0x02, 0x00, 0x00]`; the enable bitmask has the
media (0x02), width (0x04), length (0x08) and recover-on-device (0x80)
bits set. -/
theorem setPrintProperty_encoding :
    (∀ (s : SerialState) (r : Nat), r < 4294967296 →
      (setPrintPropertyData s r).getD 7 0 = r % 256 ∧
      (setPrintPropertyData s r).getD 8 0 = r / 256 % 256 ∧
      (setPrintPropertyData s r).getD 9 0 = r / 65536 % 256 ∧
      (setPrintPropertyData s r).getD 10 0 = r / 16777216 ∧
      Nat.testBit ((setPrintPropertyData s r).getD 3 0) 1 = true ∧
      Nat.testBit ((setPrintPropertyData s r).getD 3 0) 2 = true ∧
      Nat.testBit ((setPrintPropertyData s r).getD 3 0) 3 = true ∧
      Nat.testBit ((setPrintPropertyData s r).getD 3 0) 7 = true) ∧
    (setPrintPropertyData ⟨12⟩ 600).getD 7 0 = 0x58 ∧
    (setPrintPropertyData ⟨12⟩ 600).getD 8 0 = 0x02 ∧
    (setPrintPropertyData ⟨12⟩ 600).getD 9 0 = 0x00 ∧
    (setPrintPropertyData ⟨12⟩ 600).getD 10 0 = 0x00 := by
  refine ⟨?_, by decide, by decide, by decide, by decide⟩
  intro s r hr
  simp only [setPrintPropertyData, cmdSetPrintPropertyPrefix,
    printPropertyEnableBitMedia, printPropertyEnableBitWidth,
    printPropertyEnableBitLength, printPropertyEnableBitRecoverOnDevice,
    List.cons_append, List.nil_append, List.getD_cons_succ, List.getD_cons_zero]
  refine ⟨by omega, by omega, by omega, by omega, by decide, by decide, by decide, by decide⟩

/-- Witness for `setPrintProperty_encoding` at `rasterLines = 600`. -/
theorem setPrintProperty_encoding_witness :
    (setPrintPropertyData ⟨24⟩ 600).getD 7 0 = 600 % 256 ∧
    (setPrintPropertyData ⟨24⟩ 600).getD 8 0 = 600 / 256 % 256 ∧
    (setPrintPropertyData ⟨24⟩ 600).getD 9 0 = 600 / 65536 % 256 ∧
    (setPrintPropertyData ⟨24⟩ 600).getD 10 0 = 600 / 16777216 ∧
    Nat.testBit ((setPrintPropertyData ⟨24⟩ 600).getD 3 0) 1 = true ∧
    Nat.testBit ((setPrintPropertyData ⟨24⟩ 600).getD 3 0) 2 = true ∧
    Nat.testBit ((setPrintPropertyData ⟨24⟩ 600).getD 3 0) 3 = true ∧
    Nat.testBit ((setPrintPropertyData ⟨24⟩ 600).getD 3 0) 7 = true :=
  setPrintProperty_encoding.1 ⟨24⟩ 600 (by decide)

/-- C10: the frame written by `SetPrintProperty` does not depend on the
session's `TapeWidthMM`: any two sessions produce identical frames, the
tape-width parameter byte is always the constant 62 and the media-type
byte always `0x0A`. -/
theorem setPrintProperty_tapeWidth_independent :
    (∀ (s1 s2 : SerialState) (r : Nat),
      setPrintPropertyData s1 r = setPrintPropertyData s2 r) ∧
    (∀ (s : SerialState) (r : Nat),
      (setPrintPropertyData s r).getD 5 0 = 62 ∧
      (setPrintPropertyData s r).getD 4 0 = 0x0A) := by
  refine ⟨fun s1 s2 r => rfl, fun s r => ⟨?_, ?_⟩⟩ <;>
    simp [setPrintPropertyData, cmdSetPrintPropertyPrefix]

end PTouchGo
